import Mathlib

/-!
Verification development for the tsdiagram core: the ModelParser graph
builder (spec sections 4.1 to 4.3) and the Renderer layout orchestration
(src/src/components/Renderer/Renderer.tsx).

The parser source file (src/src/lib/parser/ModelParser.ts) is not part of
the provided sources; only its test file (src/src/lib/parser/ModelParser.test.ts)
is. The parser side below is therefore modelled from the specification,
with the dependency graph represented as an arena of id-addressed entities
(spec section 9), and validated against the expectations recorded in the
test file. Where the specification text and the test file disagree (the
deduplication of adjacency entries), the test file is followed and the
divergence is recorded in the relevant theorems.
-/

namespace TsDiagram

/-! ## Parser data model

Modelled from the spec: section 3 DATA MODEL. A resolved type position is
either a literal type string or a reference to a declared model; models are
addressed by id (id = declaration name), and the dependency and dependant
lists store ids, following the arena representation the spec itself
prescribes in section 9 for ownership-disciplined targets. -/

inductive TypeRef where
  | lit (s : String)
  | model (id : String)
deriving DecidableEq, Repr

/-- Field variants, from spec section 3: primitive, array, generic-reference,
direct-reference. -/
inductive Field where
  | primitive (name ty : String)
  | arr (name : String) (elementType : TypeRef)
  | reference (name referenceName : String) (arguments : List TypeRef)
  | direct (name : String) (modelId : String)
deriving DecidableEq, Repr

structure Model where
  id : String
  name : String
  schema : List Field
  dependencies : List String
  dependants : List String
deriving DecidableEq, Repr

/-! ## Raw declarations

Modelled from the spec: section 4.1 SchemaParser. Its output is a flat list
of RawDeclaration (name + raw field list); a declaration whose root shape is
not an object literal registers its name with an empty field list. The
text-to-declaration step itself (ts-morph) is outside the model; claims
about parses are stated over the declaration lists the SchemaParser
produces. -/

inductive RawType where
  | plain (s : String)
  | array (elem : String)
  | generic (name : String) (args : List String)
deriving DecidableEq, Repr

structure RawField where
  name : String
  ty : RawType
deriving DecidableEq, Repr

structure RawDecl where
  name : String
  rawFields : List RawField
deriving DecidableEq, Repr

/-! ## FieldClassifier

Modelled from the spec: section 4.2. Resolution is purely name-based against
the index of all top-level declared names. -/

def classify (names : List String) (f : RawField) : Field :=
  match f.ty with
  | .array e => if e ∈ names then .arr f.name (.model e) else .arr f.name (.lit e)
  | .generic g args =>
      .reference f.name g (args.map fun a => if a ∈ names then TypeRef.model a else TypeRef.lit a)
  | .plain t => if t ∈ names then .direct f.name t else .primitive f.name t

/-- The model ids a classified field resolves to, in encounter order
(direct reference, array element, then generic arguments in order). -/
def fieldRefs : Field → List String
  | .direct _ i => [i]
  | .arr _ (.model i) => [i]
  | .arr _ (.lit _) => []
  | .reference _ _ args => args.filterMap fun a =>
      match a with
      | .model i => some i
      | .lit _ => none
  | .primitive _ _ => []

/-! ## GraphBuilder

Modelled from the spec: section 4.3, two passes (placeholders first, field
resolution and adjacency wiring second). One deliberate divergence from the
spec text: the spec says no deduplication of adjacency entries is performed,
but the repository test (ModelParser.test.ts, "parses references") expects a
single dependency entry for model C of `type C = { c: Map<A, A> }` and a
single "C" entry in the dependants of A; the builder below therefore guards
each adjacency append with a membership check, matching the test. -/

def findModel (ms : List Model) (i : String) : Option Model :=
  ms.find? fun m => m.id == i

def depsOfId (ms : List Model) (i : String) : List String :=
  ((findModel ms i).map Model.dependencies).getD []

def dependantsOfId (ms : List Model) (i : String) : List String :=
  ((findModel ms i).map Model.dependants).getD []

/-- Pointwise update used by `pushDep`: on the model whose id is `x`, append
`y` to the dependencies unless already present; on the model whose id is `y`,
append `x` to the dependants unless already present. -/
def pushFun (x y : String) (ms : List Model) (m : Model) : Model :=
  { m with
    dependencies :=
      if m.id = x ∧ ¬ y ∈ depsOfId ms x then m.dependencies ++ [y] else m.dependencies,
    dependants :=
      if m.id = y ∧ ¬ x ∈ dependantsOfId ms y then m.dependants ++ [x] else m.dependants }

/-- Record one resolved reference from model `x` to model `y`: append `y` to
the dependencies of `x` and `x` to the dependants of `y`, each unless already
present (see the divergence note above). A self-reference (`x = y`) updates
both lists of the same model. -/
def pushDep (x y : String) (ms : List Model) : List Model :=
  ms.map (pushFun x y ms)

/-- Pointwise update used by `setSchema`. -/
def setFun (x : String) (fields : List Field) (m : Model) : Model :=
  if m.id = x then { m with schema := fields } else m

def setSchema (x : String) (fields : List Field) (ms : List Model) : List Model :=
  ms.map (setFun x fields)

/-- Pass 2 step for one declaration: classify its raw fields, install them as
the schema of the declaration's model, then record every resolved model
reference in field-then-argument encounter order. -/
def processDecl (names : List String) (ms : List Model) (d : RawDecl) : List Model :=
  let fields := d.rawFields.map (classify names)
  let ms1 := setSchema d.name fields ms
  (fields.flatMap fieldRefs).foldl (fun acc y => pushDep d.name y acc) ms1

/-- Pass 1 placeholder for a declaration: id = name, everything else empty. -/
def initModel (d : RawDecl) : Model :=
  { id := d.name, name := d.name, schema := [], dependencies := [], dependants := [] }

/-- The whole GraphBuilder: placeholders for every declaration, then field
resolution and adjacency wiring against the full name index (so forward
references and self references resolve). -/
def build (decls : List RawDecl) : List Model :=
  let names := decls.map RawDecl.name
  decls.foldl (processDecl names) (decls.map initModel)

/-! ## Concrete declaration lists from the repository test file

Each list transcribes the source text of one test in
src/src/lib/parser/ModelParser.test.ts at the RawDeclaration level. -/

/-- Test "supports type aliases with kind != TypeLiteral":
`type A = string; type B = { field: A };` — the root of A is not an object
literal, so A registers with an empty field list (spec section 4.1). -/
def aliasDecls : List RawDecl :=
  [ { name := "A", rawFields := [] },
    { name := "B", rawFields := [{ name := "field", ty := .plain "A" }] } ]

/-- Test "parses references":
`type A = { a: Array<string> }; type B = { b: Record<string, A> };
type C = { c: Map<A, A> };`. -/
def referencesDecls : List RawDecl :=
  [ { name := "A", rawFields := [{ name := "a", ty := .generic "Array" ["string"] }] },
    { name := "B", rawFields := [{ name := "b", ty := .generic "Record" ["string", "A"] }] },
    { name := "C", rawFields := [{ name := "c", ty := .generic "Map" ["A", "A"] }] } ]

/-- The model the test "parses references" expects for declaration B. -/
def modelB : Model :=
  { id := "B", name := "B",
    schema := [.reference "b" "Record" [.lit "string", .model "A"]],
    dependencies := ["A"], dependants := [] }

/-- The model the test "parses references" expects for declaration C. -/
def modelC : Model :=
  { id := "C", name := "C",
    schema := [.reference "c" "Map" [.model "A", .model "A"]],
    dependencies := ["A"], dependants := [] }

/-- Test "parses arrays of models": `type A = { a: B[] }; type B = { b: string };`. -/
def arrayDecls : List RawDecl :=
  [ { name := "A", rawFields := [{ name := "a", ty := .array "B" }] },
    { name := "B", rawFields := [{ name := "b", ty := .plain "string" }] } ]

/-! ## Id-indexed views and invariants of the builder state -/

def schemaOfId (ms : List Model) (i : String) : List Field :=
  ((findModel ms i).map Model.schema).getD []

/-- Any two models in the arena sharing an id are equal. -/
def IdInj (ms : List Model) : Prop :=
  ∀ m₁ ∈ ms, ∀ m₂ ∈ ms, m₁.id = m₂.id → m₁ = m₂

/-- The adjacency mirror: y is among the dependencies of x exactly when x is
among the dependants of y. -/
def Mirrored (ms : List Model) : Prop :=
  ∀ a b : String, b ∈ depsOfId ms a ↔ a ∈ dependantsOfId ms b

/-- Every dependency and dependant list in the arena is duplicate free. -/
def DepsNodup (ms : List Model) : Prop :=
  ∀ a : String, (depsOfId ms a).Nodup ∧ (dependantsOfId ms a).Nodup

/-- Every model reference occurring in an installed schema is recorded in the
dependencies of the owning model. -/
def SchemaDeps (ms : List Model) : Prop :=
  ∀ a : String, ∀ f ∈ schemaOfId ms a, ∀ y ∈ fieldRefs f, y ∈ depsOfId ms a

/-- The fold recording all references of one declaration, in encounter order. -/
def pushAll (x : String) (ys : List String) (ms : List Model) : List Model :=
  ys.foldl (fun acc y => pushDep x y acc) ms

/-- The bundled invariant maintained by the builder. -/
structure GoodState (names : List String) (ms : List Model) : Prop where
  ids : ms.map Model.id = names
  inj : IdInj ms
  mirror : Mirrored ms
  nodup : DepsNodup ms
  schemaDeps : SchemaDeps ms

/-! ## Renderer: layout request construction and result application

Embedded from src/src/components/Renderer/Renderer.tsx, getLayoutedElements
(lines 39 to 125). A view node carries id, reactflow type, the model schema
(its data payload, reduced to what the code reads), position and an optional
measured size; numbers are modelled as integers, which the position and size
logic never depends on. -/

structure RNode where
  id : String
  ty : String
  schema : List Field
  x : Int
  y : Int
  width : Option Int
  height : Option Int
deriving DecidableEq, Repr

structure REdge where
  id : String
  source : String
  target : String
  sourceHandle : Option String
deriving DecidableEq, Repr

/-- JavaScript truthiness of an optional number: undefined and 0 are falsy. -/
def jsTruthy : Option Int → Bool
  | some w => w != 0
  | none => false

inductive Direction where
  | horizontal
  | vertical
deriving DecidableEq, Repr

/-- The elk.direction option value chosen from the configured direction. -/
def elkDirection : Direction → String
  | .horizontal => "RIGHT"
  | .vertical => "DOWN"

def fieldName : Field → String
  | .primitive n _ => n
  | .arr n _ => n
  | .reference n _ _ => n
  | .direct n _ => n

structure ElkPort where
  id : String
  order : Nat
  side : String
deriving DecidableEq, Repr

/-- One port per schema field: id nodeId-fieldName, order = field index, and
the side literal EAST exactly as in the source. -/
def buildPorts (nodeId : String) (schema : List Field) : List ElkPort :=
  schema.enum.map fun p =>
    { id := nodeId ++ "-" ++ fieldName p.2, order := p.1, side := "EAST" }

structure ElkChildReq where
  id : String
  width : Int
  height : Int
  ports : List ElkPort
  fixedX : Option Int
  fixedY : Option Int
deriving DecidableEq, Repr

structure ElkEdgeReq where
  id : String
  sources : List String
  targets : List String
deriving DecidableEq, Repr

structure ElkGraphReq where
  direction : String
  children : List ElkChildReq
  edges : List ElkEdgeReq
deriving DecidableEq, Repr

/-- One child of the layout request: width and height default to 0 when the
node is unmeasured, ports from the schema, and the current position passed as
a fixed seed exactly for manually moved nodes. -/
def buildChild (pinned : List String) (n : RNode) : ElkChildReq :=
  { id := n.id
    width := n.width.getD 0
    height := n.height.getD 0
    ports := buildPorts n.id n.schema
    fixedX := if pinned.contains n.id then some n.x else none
    fixedY := if pinned.contains n.id then some n.y else none }

/-- The layout request built by getLayoutedElements: the direction option,
one child per node, and edges with sources = [sourceHandle ?? source]. -/
def buildRequest (nodes : List RNode) (edges : List REdge) (dir : Direction)
    (pinned : List String) : ElkGraphReq :=
  { direction := elkDirection dir
    children := nodes.map (buildChild pinned)
    edges := edges.map fun e =>
      { id := e.id, sources := [e.sourceHandle.getD e.source], targets := [e.target] } }

/-- One node of the asynchronous layout result; every coordinate the engine
reports is optional. -/
structure ElkChildRes where
  id : String
  x : Option Int
  y : Option Int
  width : Option Int
  height : Option Int
deriving DecidableEq, Repr

/-- layoutedGraph.children?.find of the source. -/
def findChild (cs : Option (List ElkChildRes)) (i : String) : Option ElkChildRes :=
  (cs.getD []).find? fun c => c.id == i

/-- Application of the layout result to one input node, from the source: a
node absent from the result is returned unchanged; a pinned node keeps its
position verbatim; otherwise a reported coordinate is adopted, falling back
to the previous position; the size is adopted exactly when the engine
reports both a truthy width and a truthy height, and omitted otherwise. -/
def applyNode (pinned : List String) (cs : Option (List ElkChildRes)) (n : RNode) : RNode :=
  match findChild cs n.id with
  | none => n
  | some c =>
    { id := n.id
      ty := n.ty
      schema := n.schema
      x := if pinned.contains n.id then n.x else c.x.getD n.x
      y := if pinned.contains n.id then n.y else c.y.getD n.y
      width := if jsTruthy c.width && jsTruthy c.height then c.width else none
      height := if jsTruthy c.width && jsTruthy c.height then c.height else none }

/-- The node list returned by getLayoutedElements. -/
def applyLayout (nodes : List RNode) (cs : Option (List ElkChildRes))
    (pinned : List String) : List RNode :=
  nodes.map (applyNode pinned cs)

/-! ## Renderer: relayout change detection

Embedded from the useLayoutEffect at Renderer.tsx lines 294 to 317. The
caches are the previously committed edges and the cached node map; the map
built by new Map(nodes.map(...)) is modelled by the insertion list itself,
with last-set-wins lookup and distinct-key size. -/

structure CacheState where
  prevEdges : List REdge
  cachedNodes : List RNode
deriving DecidableEq, Repr

/-- Lookup of a JavaScript Map built from an insertion list: the last entry
with the key wins. -/
def mapGet : List RNode → String → Option RNode
  | [], _ => none
  | n :: t, i =>
    match mapGet t i with
    | some r => some r
    | none => if n.id == i then some n else none

/-- Size of a JavaScript Map built from an insertion list: the number of
distinct keys. -/
def mapSize (ns : List RNode) : Nat :=
  ((ns.map RNode.id).dedup).length

/-- The per-node test of the relayout detector: a previously cached truthy
width differing from the present one, or likewise for the height. -/
def nodeMetricsChanged (cached : List RNode) (n : RNode) : Bool :=
  match mapGet cached n.id with
  | some p =>
      (jsTruthy p.width && n.width != p.width) || (jsTruthy p.height && n.height != p.height)
  | none => false

/-- One evaluation of the relayout change detector: edge count change, else
node count versus cached map size, else any per-node metrics change; the
caches are then refreshed (the previous edges only inside the first branch,
the node cache unconditionally, as in the source). -/
def relayoutStep (st : CacheState) (nodes : List RNode) (edges : List REdge) :
    Bool × CacheState :=
  let needs : Bool :=
    if st.prevEdges.length ≠ edges.length then true
    else if nodes.length = mapSize st.cachedNodes then
      nodes.any (nodeMetricsChanged st.cachedNodes)
    else true
  let prevEdges1 := if st.prevEdges.length ≠ edges.length then edges else st.prevEdges
  (needs, { prevEdges := prevEdges1, cachedNodes := nodes })

/-! ## Renderer: topology hash notifications

Embedded from the useEffect at Renderer.tsx lines 320 to 338. -/

/-- Lookup of a JavaScript Map of models by id, last entry wins. -/
def mapGetModel : List Model → String → Option Model
  | [], _ => none
  | m :: t, i =>
    match mapGetModel t i with
    | some r => some r
    | none => if m.id == i then some m else none

def joinColon (l : List String) : String :=
  String.intercalate ":" l

/-- The notification decision for one current model: present in the previous
map and with a changed dependants hash or dependencies hash (ordered ids
joined by colons). -/
def topoEmit (prev : List Model) (m : Model) : Option String :=
  match mapGetModel prev m.id with
  | none => none
  | some pm =>
    if joinColon pm.dependants ≠ joinColon m.dependants ∨
        joinColon pm.dependencies ≠ joinColon m.dependencies
    then some m.id else none

/-- The node ids for which updateNodeInternals is invoked after a rebuild. -/
def topoNotifications (prev curr : List Model) : List String :=
  curr.filterMap (topoEmit prev)

/-! ## Renderer: the manually moved node id set

The only mutation of manuallyMovedNodesSet in Renderer.tsx is the Set add in
handleNodeDragStop (lines 369 to 371); every other callback of the component
leaves the set untouched, which the event model below records. -/

inductive RendererEvent where
  | nodeDragStop (id : String)
  | autoLayoutPass
  | mouseDown
  | wheelMove
  | autoFitToggle
  | directionToggle
  | sourceChange
deriving DecidableEq, Repr

/-- Effect of one Renderer callback on the manually moved id set (a
JavaScript Set modelled as its insertion-ordered duplicate free list). -/
def pinnedStep (s : List String) : RendererEvent → List String
  | .nodeDragStop i => if s.contains i then s else s ++ [i]
  | _ => s

def pinnedAfter (s : List String) (evs : List RendererEvent) : List String :=
  evs.foldl pinnedStep s

/-! ## Concrete renderer values used by witnesses and counterexamples -/

def nodeA : RNode :=
  { id := "A", ty := "model", schema := [.primitive "a" "string"],
    x := 1, y := 2, width := some 10, height := some 20 }

/-- A layout result that reports a width but no height for node A. -/
def childPartial : ElkChildRes :=
  { id := "A", x := some 3, y := some 4, width := some 5, height := none }

/-- A layout result that reports full geometry for node A. -/
def childFull : ElkChildRes :=
  { id := "A", x := some 7, y := some 8, width := some 30, height := some 40 }

def edge1 : REdge :=
  { id := "1-A-a", source := "A", target := "A", sourceHandle := some "A-a" }

def cache0 : CacheState :=
  { prevEdges := [], cachedNodes := [] }

def modelA0 : Model :=
  { id := "A", name := "A", schema := [], dependencies := [], dependants := [] }

def modelA1 : Model :=
  { id := "A", name := "A", schema := [], dependencies := [], dependants := ["B"] }

theorem findModel_map_of_id_eq {f : Model → Model} (hf : ∀ m, (f m).id = m.id)
    (ms : List Model) (i : String) :
    findModel (ms.map f) i = (findModel ms i).map f := by
  have hq : ((fun m : Model => m.id == i) ∘ f) = fun m : Model => m.id == i := by
    funext m
    simp [Function.comp, hf]
  unfold findModel
  rw [List.find?_map, hq]

theorem map_id_map_of_id_eq {f : Model → Model} (hf : ∀ m, (f m).id = m.id)
    (ms : List Model) : (ms.map f).map Model.id = ms.map Model.id := by
  rw [List.map_map]
  exact List.map_congr_left fun m _ => hf m

theorem idInj_map_of_id_eq {f : Model → Model} (hf : ∀ m, (f m).id = m.id)
    {ms : List Model} (h : IdInj ms) : IdInj (ms.map f) := by
  intro m₁ h₁ m₂ h₂ hid
  obtain ⟨a, ha, rfl⟩ := List.mem_map.mp h₁
  obtain ⟨b, hb, rfl⟩ := List.mem_map.mp h₂
  rw [hf a, hf b] at hid
  rw [h a ha b hb hid]

theorem present_iff (ms : List Model) (a : String) :
    (findModel ms a).isSome = true ↔ a ∈ ms.map Model.id := by
  unfold findModel
  rw [List.find?_isSome, List.mem_map]
  constructor
  · rintro ⟨m, hm, hp⟩
    exact ⟨m, hm, by simpa using hp⟩
  · rintro ⟨m, hm, hp⟩
    exact ⟨m, hm, by simp [hp]⟩

theorem findModel_eq_of_mem {ms : List Model} (hinj : IdInj ms) {m : Model}
    (hm : m ∈ ms) : findModel ms m.id = some m := by
  have hsome : (findModel ms m.id).isSome = true := by
    unfold findModel
    exact List.find?_isSome.mpr ⟨m, hm, by simp⟩
  obtain ⟨m', hm'⟩ := Option.isSome_iff_exists.mp hsome
  have hmem : m' ∈ ms := List.mem_of_find?_eq_some hm'
  have hid : m'.id = m.id := by
    have := List.find?_some hm'
    simpa using this
  rw [hm', hinj m' hmem m hm hid]

theorem depsOfId_eq_of_findModel {ms : List Model} {a : String} {m : Model}
    (h : findModel ms a = some m) : depsOfId ms a = m.dependencies := by
  unfold depsOfId
  rw [h]
  rfl

theorem depsOfId_eq_nil_of_none {ms : List Model} {a : String}
    (h : findModel ms a = none) : depsOfId ms a = [] := by
  unfold depsOfId
  rw [h]
  rfl

theorem dependantsOfId_eq_of_findModel {ms : List Model} {a : String} {m : Model}
    (h : findModel ms a = some m) : dependantsOfId ms a = m.dependants := by
  unfold dependantsOfId
  rw [h]
  rfl

theorem dependantsOfId_eq_nil_of_none {ms : List Model} {a : String}
    (h : findModel ms a = none) : dependantsOfId ms a = [] := by
  unfold dependantsOfId
  rw [h]
  rfl

theorem schemaOfId_eq_of_findModel {ms : List Model} {a : String} {m : Model}
    (h : findModel ms a = some m) : schemaOfId ms a = m.schema := by
  unfold schemaOfId
  rw [h]
  rfl

theorem schemaOfId_eq_nil_of_none {ms : List Model} {a : String}
    (h : findModel ms a = none) : schemaOfId ms a = [] := by
  unfold schemaOfId
  rw [h]
  rfl

theorem findModel_id_eq {ms : List Model} {a : String} {m : Model}
    (h : findModel ms a = some m) : m.id = a := by
  have h2 : List.find? (fun n => n.id == a) ms = some m := h
  simpa using List.find?_some h2

theorem findModel_mem {ms : List Model} {a : String} {m : Model}
    (h : findModel ms a = some m) : m ∈ ms := by
  have h2 : List.find? (fun n => n.id == a) ms = some m := h
  exact List.mem_of_find?_eq_some h2

/-! ### Effect of pushDep on the id-indexed views -/

theorem findModel_pushDep (x y i : String) (ms : List Model) :
    findModel (pushDep x y ms) i = (findModel ms i).map (pushFun x y ms) := by
  unfold pushDep
  apply findModel_map_of_id_eq
  intro m
  rfl

theorem ids_pushDep (x y : String) (ms : List Model) :
    (pushDep x y ms).map Model.id = ms.map Model.id := by
  unfold pushDep
  apply map_id_map_of_id_eq
  intro m
  rfl

theorem idInj_pushDep (x y : String) {ms : List Model} (h : IdInj ms) :
    IdInj (pushDep x y ms) := by
  unfold pushDep
  apply idInj_map_of_id_eq _ h
  intro m
  rfl

theorem depsOfId_pushDep (x y a : String) (ms : List Model) :
    depsOfId (pushDep x y ms) a =
      if a = x ∧ ¬ y ∈ depsOfId ms x ∧ (findModel ms a).isSome = true
      then depsOfId ms a ++ [y] else depsOfId ms a := by
  cases h : findModel ms a with
  | none =>
    have hres : findModel (pushDep x y ms) a = none := by
      rw [findModel_pushDep, h]
      rfl
    rw [depsOfId_eq_nil_of_none hres, depsOfId_eq_nil_of_none h]
    simp
  | some m =>
    have hid : m.id = a := findModel_id_eq h
    have hres : findModel (pushDep x y ms) a = some (pushFun x y ms m) := by
      rw [findModel_pushDep, h]
      rfl
    rw [depsOfId_eq_of_findModel hres, depsOfId_eq_of_findModel h]
    show (if m.id = x ∧ ¬ y ∈ depsOfId ms x then m.dependencies ++ [y] else m.dependencies) = _
    rw [hid]
    by_cases hax : a = x <;> by_cases hmem : y ∈ depsOfId ms x <;> simp [hax, hmem]

theorem dependantsOfId_pushDep (x y a : String) (ms : List Model) :
    dependantsOfId (pushDep x y ms) a =
      if a = y ∧ ¬ x ∈ dependantsOfId ms y ∧ (findModel ms a).isSome = true
      then dependantsOfId ms a ++ [x] else dependantsOfId ms a := by
  cases h : findModel ms a with
  | none =>
    have hres : findModel (pushDep x y ms) a = none := by
      rw [findModel_pushDep, h]
      rfl
    rw [dependantsOfId_eq_nil_of_none hres, dependantsOfId_eq_nil_of_none h]
    simp
  | some m =>
    have hid : m.id = a := findModel_id_eq h
    have hres : findModel (pushDep x y ms) a = some (pushFun x y ms m) := by
      rw [findModel_pushDep, h]
      rfl
    rw [dependantsOfId_eq_of_findModel hres, dependantsOfId_eq_of_findModel h]
    show (if m.id = y ∧ ¬ x ∈ dependantsOfId ms y then m.dependants ++ [x] else m.dependants) = _
    rw [hid]
    by_cases hay : a = y <;> by_cases hmem : x ∈ dependantsOfId ms y <;> simp [hay, hmem]

theorem schemaOfId_pushDep (x y a : String) (ms : List Model) :
    schemaOfId (pushDep x y ms) a = schemaOfId ms a := by
  cases h : findModel ms a with
  | none =>
    have hres : findModel (pushDep x y ms) a = none := by
      rw [findModel_pushDep, h]
      rfl
    rw [schemaOfId_eq_nil_of_none hres, schemaOfId_eq_nil_of_none h]
  | some m =>
    have hres : findModel (pushDep x y ms) a = some (pushFun x y ms m) := by
      rw [findModel_pushDep, h]
      rfl
    rw [schemaOfId_eq_of_findModel hres, schemaOfId_eq_of_findModel h]
    rfl

theorem mem_depsOfId_pushDep (x y a b : String) (ms : List Model)
    (h : b ∈ depsOfId ms a) : b ∈ depsOfId (pushDep x y ms) a := by
  rw [depsOfId_pushDep]
  split
  · exact List.mem_append_left _ h
  · exact h

theorem mirrored_pushDep (x y : String) {ms : List Model} (h : Mirrored ms)
    (hx : (findModel ms x).isSome = true) (hy : (findModel ms y).isSome = true) :
    Mirrored (pushDep x y ms) := by
  intro a b
  rw [depsOfId_pushDep x y a ms, dependantsOfId_pushDep x y b ms]
  split_ifs with hc1 hc2 hc2
  · simp [List.mem_append, hc1.1, hc2.1]
  · by_cases hbe : b = y
    · exfalso
      by_cases hmem : x ∈ dependantsOfId ms y
      · exact hc1.2.1 ((h x y).mpr hmem)
      · exact hc2 ⟨hbe, hmem, by rw [hbe]; exact hy⟩
    · rw [List.mem_append]
      constructor
      · rintro (hb | hb)
        · exact (h a b).mp hb
        · exact absurd (by simpa using hb) hbe
      · intro hb
        exact Or.inl ((h a b).mpr hb)
  · by_cases hae : a = x
    · exfalso
      by_cases hmem : y ∈ depsOfId ms x
      · exact hc2.2.1 ((h x y).mp hmem)
      · exact hc1 ⟨hae, hmem, by rw [hae]; exact hx⟩
    · rw [List.mem_append]
      constructor
      · intro hb
        exact Or.inl ((h a b).mp hb)
      · rintro (hb | hb)
        · exact (h a b).mpr hb
        · exact absurd (by simpa using hb) hae
  · exact h a b

theorem depsNodup_pushDep (x y : String) {ms : List Model} (h : DepsNodup ms) :
    DepsNodup (pushDep x y ms) := by
  intro a
  rw [depsOfId_pushDep, dependantsOfId_pushDep]
  constructor
  · split_ifs with hc
    · obtain ⟨hax, hmem, _⟩ := hc
      subst hax
      rw [List.nodup_append]
      refine ⟨(h a).1, List.nodup_singleton y, ?_⟩
      intro z hz hz2
      rw [List.mem_singleton] at hz2
      subst hz2
      exact hmem hz
    · exact (h a).1
  · split_ifs with hc
    · obtain ⟨hay, hmem, _⟩ := hc
      subst hay
      rw [List.nodup_append]
      refine ⟨(h a).2, List.nodup_singleton x, ?_⟩
      intro z hz hz2
      rw [List.mem_singleton] at hz2
      subst hz2
      exact hmem hz
    · exact (h a).2

/-! ### Effect of setSchema on the id-indexed views -/

theorem setFun_id (x : String) (fields : List Field) (m : Model) :
    (setFun x fields m).id = m.id := by
  unfold setFun
  split <;> rfl

theorem findModel_setSchema (x : String) (fields : List Field) (i : String) (ms : List Model) :
    findModel (setSchema x fields ms) i = (findModel ms i).map (setFun x fields) := by
  unfold setSchema
  exact findModel_map_of_id_eq (setFun_id x fields) ms i

theorem ids_setSchema (x : String) (fields : List Field) (ms : List Model) :
    (setSchema x fields ms).map Model.id = ms.map Model.id := by
  unfold setSchema
  exact map_id_map_of_id_eq (setFun_id x fields) ms

theorem idInj_setSchema (x : String) (fields : List Field) {ms : List Model}
    (h : IdInj ms) : IdInj (setSchema x fields ms) := by
  unfold setSchema
  exact idInj_map_of_id_eq (setFun_id x fields) h

theorem depsOfId_setSchema (x : String) (fields : List Field) (a : String) (ms : List Model) :
    depsOfId (setSchema x fields ms) a = depsOfId ms a := by
  cases h : findModel ms a with
  | none =>
    have hres : findModel (setSchema x fields ms) a = none := by
      rw [findModel_setSchema, h]
      rfl
    rw [depsOfId_eq_nil_of_none hres, depsOfId_eq_nil_of_none h]
  | some m =>
    have hres : findModel (setSchema x fields ms) a = some (setFun x fields m) := by
      rw [findModel_setSchema, h]
      rfl
    rw [depsOfId_eq_of_findModel hres, depsOfId_eq_of_findModel h]
    unfold setFun
    split <;> rfl

theorem dependantsOfId_setSchema (x : String) (fields : List Field) (a : String)
    (ms : List Model) : dependantsOfId (setSchema x fields ms) a = dependantsOfId ms a := by
  cases h : findModel ms a with
  | none =>
    have hres : findModel (setSchema x fields ms) a = none := by
      rw [findModel_setSchema, h]
      rfl
    rw [dependantsOfId_eq_nil_of_none hres, dependantsOfId_eq_nil_of_none h]
  | some m =>
    have hres : findModel (setSchema x fields ms) a = some (setFun x fields m) := by
      rw [findModel_setSchema, h]
      rfl
    rw [dependantsOfId_eq_of_findModel hres, dependantsOfId_eq_of_findModel h]
    unfold setFun
    split <;> rfl

theorem schemaOfId_setSchema (x : String) (fields : List Field) (a : String) (ms : List Model) :
    schemaOfId (setSchema x fields ms) a =
      if a = x ∧ (findModel ms a).isSome = true then fields else schemaOfId ms a := by
  cases h : findModel ms a with
  | none =>
    have hres : findModel (setSchema x fields ms) a = none := by
      rw [findModel_setSchema, h]
      rfl
    rw [schemaOfId_eq_nil_of_none hres, schemaOfId_eq_nil_of_none h]
    simp
  | some m =>
    have hid : m.id = a := findModel_id_eq h
    have hres : findModel (setSchema x fields ms) a = some (setFun x fields m) := by
      rw [findModel_setSchema, h]
      rfl
    rw [schemaOfId_eq_of_findModel hres, schemaOfId_eq_of_findModel h]
    unfold setFun
    rw [hid]
    by_cases hax : a = x <;> simp [hax]

theorem mirrored_setSchema (x : String) (fields : List Field) {ms : List Model}
    (h : Mirrored ms) : Mirrored (setSchema x fields ms) := by
  intro a b
  rw [depsOfId_setSchema, dependantsOfId_setSchema]
  exact h a b

theorem depsNodup_setSchema (x : String) (fields : List Field) {ms : List Model}
    (h : DepsNodup ms) : DepsNodup (setSchema x fields ms) := by
  intro a
  rw [depsOfId_setSchema, dependantsOfId_setSchema]
  exact h a

/-! ### The fold of pushes over all references of one declaration -/

theorem pushAll_cons (x z : String) (ys : List String) (ms : List Model) :
    pushAll x (z :: ys) ms = pushAll x ys (pushDep x z ms) := rfl

theorem processDecl_eq (names : List String) (ms : List Model) (d : RawDecl) :
    processDecl names ms d =
      pushAll d.name ((d.rawFields.map (classify names)).flatMap fieldRefs)
        (setSchema d.name (d.rawFields.map (classify names)) ms) := rfl

theorem ids_pushAll (x : String) (ys : List String) (ms : List Model) :
    (pushAll x ys ms).map Model.id = ms.map Model.id := by
  induction ys generalizing ms with
  | nil => rfl
  | cons z t ih =>
    rw [pushAll_cons, ih, ids_pushDep]

theorem idInj_pushAll (x : String) (ys : List String) {ms : List Model} (h : IdInj ms) :
    IdInj (pushAll x ys ms) := by
  induction ys generalizing ms with
  | nil => exact h
  | cons z t ih =>
    rw [pushAll_cons]
    exact ih (idInj_pushDep x z h)

theorem schemaOfId_pushAll (x : String) (ys : List String) (a : String) (ms : List Model) :
    schemaOfId (pushAll x ys ms) a = schemaOfId ms a := by
  induction ys generalizing ms with
  | nil => rfl
  | cons z t ih =>
    rw [pushAll_cons, ih, schemaOfId_pushDep]

theorem mem_depsOfId_pushAll (x : String) (ys : List String) (a b : String)
    {ms : List Model} (h : b ∈ depsOfId ms a) : b ∈ depsOfId (pushAll x ys ms) a := by
  induction ys generalizing ms with
  | nil => exact h
  | cons z t ih =>
    rw [pushAll_cons]
    exact ih (mem_depsOfId_pushDep x z a b ms h)

theorem mirrored_pushAll (x : String) (ys : List String) {ms : List Model} (h : Mirrored ms)
    (hx : x ∈ ms.map Model.id) (hys : ∀ y ∈ ys, y ∈ ms.map Model.id) :
    Mirrored (pushAll x ys ms) := by
  induction ys generalizing ms with
  | nil => exact h
  | cons z t ih =>
    rw [pushAll_cons]
    have hz : z ∈ ms.map Model.id := hys z (List.mem_cons_self z t)
    refine ih ?_ ?_ ?_
    · exact mirrored_pushDep x z h ((present_iff ms x).mpr hx) ((present_iff ms z).mpr hz)
    · rw [ids_pushDep]
      exact hx
    · intro y hy
      rw [ids_pushDep]
      exact hys y (List.mem_cons_of_mem z hy)

theorem depsNodup_pushAll (x : String) (ys : List String) {ms : List Model}
    (h : DepsNodup ms) : DepsNodup (pushAll x ys ms) := by
  induction ys generalizing ms with
  | nil => exact h
  | cons z t ih =>
    rw [pushAll_cons]
    exact ih (depsNodup_pushDep x z h)

theorem mem_depsOfId_pushAll_self (x : String) (ys : List String) {ms : List Model}
    (hx : x ∈ ms.map Model.id) : ∀ y ∈ ys, y ∈ depsOfId (pushAll x ys ms) x := by
  induction ys generalizing ms with
  | nil =>
    intro y hy
    cases hy
  | cons z t ih =>
    intro y hy
    rw [pushAll_cons]
    have hx' : x ∈ (pushDep x z ms).map Model.id := by
      rw [ids_pushDep]
      exact hx
    rcases List.mem_cons.mp hy with rfl | ht
    · have hz : y ∈ depsOfId (pushDep x y ms) x := by
        by_cases hmem : y ∈ depsOfId ms x
        · exact mem_depsOfId_pushDep x y x y ms hmem
        · rw [depsOfId_pushDep, if_pos ⟨rfl, hmem, (present_iff ms x).mpr hx⟩]
          exact List.mem_append_right _ (by simp)
      exact mem_depsOfId_pushAll x t x y hz
    · exact ih hx' y ht

/-! ### The bundled invariant of the builder state -/

theorem fieldRefs_classify_subset (names : List String) (rf : RawField) :
    ∀ y ∈ fieldRefs (classify names rf), y ∈ names := by
  intro y hy
  rcases rf with ⟨n, t⟩
  cases t with
  | plain s =>
    by_cases hs : s ∈ names
    · simp [classify, hs, fieldRefs] at hy
      subst hy
      exact hs
    · simp [classify, hs, fieldRefs] at hy
  | array e =>
    by_cases he : e ∈ names
    · simp [classify, he, fieldRefs] at hy
      subst hy
      exact he
    · simp [classify, he, fieldRefs] at hy
  | generic g args =>
    simp only [classify, fieldRefs, List.mem_filterMap, List.mem_map] at hy
    obtain ⟨tr, ⟨a, ha, htr⟩, hmatch⟩ := hy
    by_cases hA : a ∈ names
    · rw [if_pos hA] at htr
      rw [← htr] at hmatch
      simp at hmatch
      subst hmatch
      exact hA
    · rw [if_neg hA] at htr
      rw [← htr] at hmatch
      simp at hmatch

theorem goodState_processDecl {names : List String} {ms : List Model} (d : RawDecl)
    (h : GoodState names ms) (hd : d.name ∈ names) :
    GoodState names (processDecl names ms d) := by
  rw [processDecl_eq]
  set fields := d.rawFields.map (classify names) with hfields
  set L := fields.flatMap fieldRefs with hL
  set ms1 := setSchema d.name fields ms with hms1
  have hids1 : ms1.map Model.id = names := by
    rw [hms1, ids_setSchema, h.ids]
  have hdL : ∀ y ∈ L, y ∈ names := by
    intro y hy
    rw [hL] at hy
    obtain ⟨f, hf, hyf⟩ := List.mem_flatMap.mp hy
    rw [hfields] at hf
    obtain ⟨rf, _, rfl⟩ := List.mem_map.mp hf
    exact fieldRefs_classify_subset names rf y hyf
  constructor
  · rw [ids_pushAll, hids1]
  · exact idInj_pushAll _ _ (idInj_setSchema _ _ h.inj)
  · refine mirrored_pushAll _ _ (mirrored_setSchema _ _ h.mirror) ?_ ?_
    · rw [hids1]
      exact hd
    · intro y hy
      rw [hids1]
      exact hdL y hy
  · exact depsNodup_pushAll _ _ (depsNodup_setSchema _ _ h.nodup)
  · intro a f hf y hy
    rw [schemaOfId_pushAll] at hf
    rw [hms1, schemaOfId_setSchema] at hf
    split_ifs at hf with hc
    · obtain ⟨had, hP⟩ := hc
      have hyL : y ∈ L := by
        rw [hL]
        exact List.mem_flatMap.mpr ⟨f, hf, hy⟩
      have hpres : d.name ∈ ms1.map Model.id := by
        rw [hids1]
        exact hd
      have hself := mem_depsOfId_pushAll_self d.name L hpres y hyL
      rw [had]
      exact hself
    · have hold : y ∈ depsOfId ms a := h.schemaDeps a f hf y hy
      have h1 : y ∈ depsOfId ms1 a := by
        rw [hms1, depsOfId_setSchema]
        exact hold
      exact mem_depsOfId_pushAll _ _ _ _ h1

theorem depsOfId_init (decls : List RawDecl) (a : String) :
    depsOfId (decls.map initModel) a = [] := by
  cases h : findModel (decls.map initModel) a with
  | none => exact depsOfId_eq_nil_of_none h
  | some m =>
    obtain ⟨d, _, rfl⟩ := List.mem_map.mp (findModel_mem h)
    rw [depsOfId_eq_of_findModel h]
    rfl

theorem dependantsOfId_init (decls : List RawDecl) (a : String) :
    dependantsOfId (decls.map initModel) a = [] := by
  cases h : findModel (decls.map initModel) a with
  | none => exact dependantsOfId_eq_nil_of_none h
  | some m =>
    obtain ⟨d, _, rfl⟩ := List.mem_map.mp (findModel_mem h)
    rw [dependantsOfId_eq_of_findModel h]
    rfl

theorem schemaOfId_init (decls : List RawDecl) (a : String) :
    schemaOfId (decls.map initModel) a = [] := by
  cases h : findModel (decls.map initModel) a with
  | none => exact schemaOfId_eq_nil_of_none h
  | some m =>
    obtain ⟨d, _, rfl⟩ := List.mem_map.mp (findModel_mem h)
    rw [schemaOfId_eq_of_findModel h]
    rfl

theorem goodState_init (decls : List RawDecl) :
    GoodState (decls.map RawDecl.name) (decls.map initModel) := by
  constructor
  · rw [List.map_map]
    rfl
  · intro m₁ h₁ m₂ h₂ hid
    obtain ⟨d₁, _, rfl⟩ := List.mem_map.mp h₁
    obtain ⟨d₂, _, rfl⟩ := List.mem_map.mp h₂
    simp only [initModel] at hid ⊢
    simp [hid]
  · intro a b
    rw [depsOfId_init, dependantsOfId_init]
    simp
  · intro a
    rw [depsOfId_init, dependantsOfId_init]
    exact ⟨List.nodup_nil, List.nodup_nil⟩
  · intro a f hf
    rw [schemaOfId_init] at hf
    cases hf

theorem goodState_build (decls : List RawDecl) :
    GoodState (decls.map RawDecl.name) (build decls) := by
  have haux : ∀ (L : List RawDecl) (ms : List Model),
      GoodState (decls.map RawDecl.name) ms →
      (∀ d ∈ L, d.name ∈ decls.map RawDecl.name) →
      GoodState (decls.map RawDecl.name) (L.foldl (processDecl (decls.map RawDecl.name)) ms) := by
    intro L
    induction L with
    | nil =>
      intro ms h _
      exact h
    | cons d t ih =>
      intro ms h hall
      rw [List.foldl_cons]
      exact ih _ (goodState_processDecl d h (hall d (List.mem_cons_self d t)))
        (fun e he => hall e (List.mem_cons_of_mem d he))
  exact haux decls _ (goodState_init decls)
    (fun d hd => List.mem_map_of_mem RawDecl.name hd)

/-! ## Validation of the modelled builder against the repository test expectations -/

example : build aliasDecls =
    [ { id := "A", name := "A", schema := [], dependencies := [], dependants := ["B"] },
      { id := "B", name := "B", schema := [.direct "field" "A"],
        dependencies := ["A"], dependants := [] } ] := by decide

example : build referencesDecls =
    [ { id := "A", name := "A",
        schema := [.reference "a" "Array" [.lit "string"]],
        dependencies := [], dependants := ["B", "C"] },
      { id := "B", name := "B",
        schema := [.reference "b" "Record" [.lit "string", .model "A"]],
        dependencies := ["A"], dependants := [] },
      { id := "C", name := "C",
        schema := [.reference "c" "Map" [.model "A", .model "A"]],
        dependencies := ["A"], dependants := [] } ] := by decide

example : build arrayDecls =
    [ { id := "A", name := "A", schema := [.arr "a" (.model "B")],
        dependencies := ["B"], dependants := [] },
      { id := "B", name := "B", schema := [.primitive "b" "string"],
        dependencies := [], dependants := ["A"] } ] := by decide

/-! ## Claim theorems for the parser -/

/-- C2: for every graph produced by a parse and every model X with a field
resolving to a model with id y (directly, as an array element, or as a
generic argument), y is an element of the dependencies of X and, for every
model Y of the graph whose id is y, the id of X is an element of the
dependants of Y — the adjacency is mirrored on both ends, self-loops
included. -/
theorem C2_adjacency_mirror (decls : List RawDecl) (X : Model) (hX : X ∈ build decls)
    (f : Field) (hf : f ∈ X.schema) (y : String) (hy : y ∈ fieldRefs f) :
    y ∈ X.dependencies ∧ ∀ Y ∈ build decls, Y.id = y → X.id ∈ Y.dependants := by
  have g := goodState_build decls
  have hfX : findModel (build decls) X.id = some X := findModel_eq_of_mem g.inj hX
  have hdep : y ∈ depsOfId (build decls) X.id := by
    apply g.schemaDeps X.id f _ y hy
    rw [schemaOfId_eq_of_findModel hfX]
    exact hf
  have hdepX : y ∈ X.dependencies := by
    rw [depsOfId_eq_of_findModel hfX] at hdep
    exact hdep
  refine ⟨hdepX, ?_⟩
  intro Y hY hYid
  have hfY : findModel (build decls) y = some Y := by
    rw [← hYid]
    exact findModel_eq_of_mem g.inj hY
  have hm : X.id ∈ dependantsOfId (build decls) y := (g.mirror X.id y).mp hdep
  rw [dependantsOfId_eq_of_findModel hfY] at hm
  exact hm

/-- Witness for C2 at the "parses references" input: the field of B resolves
to A, A is in the dependencies of B, and B is in the dependants of A. -/
theorem C2_adjacency_mirror_witness :
    "A" ∈ modelB.dependencies ∧
      ∀ Y ∈ build referencesDecls, Y.id = "A" → modelB.id ∈ Y.dependants :=
  C2_adjacency_mirror referencesDecls modelB (by decide)
    (.reference "b" "Record" [.lit "string", .model "A"]) (by decide) "A" (by decide)

/-- C1 counterexample: for `type C = { c: Map<A, A> }` (test "parses
references"), the dependencies of C contain A once, not twice, and the
dependants of A contain C once, not twice — adjacency entries are
deduplicated, contradicting the claim that each occurrence produces its own
entry. -/
theorem C1_counterexample_dedup :
    depsOfId (build referencesDecls) "C" = ["A"] ∧
    dependantsOfId (build referencesDecls) "A" = ["B", "C"] ∧
    ¬ (depsOfId (build referencesDecls) "C").count "A" = 2 ∧
    ¬ (dependantsOfId (build referencesDecls) "A").count "C" = 2 := by decide

/-- C1 amended: a field referencing the same declared model more than once
produces a single adjacency entry per end — in every built graph, each
dependencies list and each dependants list is duplicate free. -/
theorem C1_amended_dedup (decls : List RawDecl) (m : Model) (hm : m ∈ build decls) :
    m.dependencies.Nodup ∧ m.dependants.Nodup := by
  have g := goodState_build decls
  have hfm := findModel_eq_of_mem g.inj hm
  have h := g.nodup m.id
  rw [depsOfId_eq_of_findModel hfm, dependantsOfId_eq_of_findModel hfm] at h
  exact h

/-- Witness for the amended C1 at the Map example: the model C built from
`type C = { c: Map<A, A> }` has duplicate free adjacency lists. -/
theorem C1_amended_dedup_witness :
    modelC.dependencies.Nodup ∧ modelC.dependants.Nodup :=
  C1_amended_dedup referencesDecls modelC (by decide)

/-- C7: a field whose declared type name matches any top-level declared model
name is classified as a direct Model reference, and in the aliases test
(`type A = string; type B = { field: A };`) the non-object alias A still
registers as a model and acquires B as a dependant. -/
theorem C7_name_based_reference (names : List String) (n t : String) (ht : t ∈ names) :
    classify names { name := n, ty := .plain t } = .direct n t ∧
    build aliasDecls =
      [ { id := "A", name := "A", schema := [], dependencies := [], dependants := ["B"] },
        { id := "B", name := "B", schema := [.direct "field" "A"],
          dependencies := ["A"], dependants := [] } ] := by
  constructor
  · simp [classify, ht]
  · decide

/-- Witness for C7 with the concrete name index of the aliases test. -/
theorem C7_name_based_reference_witness :
    classify ["A", "B"] { name := "field", ty := .plain "A" } = .direct "field" "A" ∧
    build aliasDecls =
      [ { id := "A", name := "A", schema := [], dependencies := [], dependants := ["B"] },
        { id := "B", name := "B", schema := [.direct "field" "A"],
          dependencies := ["A"], dependants := [] } ] :=
  C7_name_based_reference ["A", "B"] "field" "A" (by decide)

/-! ## Helper lemmas for the renderer -/

theorem relayoutStep_fst (st : CacheState) (nodes : List RNode) (edges : List REdge) :
    (relayoutStep st nodes edges).1 =
      if st.prevEdges.length ≠ edges.length then true
      else if nodes.length = mapSize st.cachedNodes then
        nodes.any (nodeMetricsChanged st.cachedNodes)
      else true := rfl

theorem relayoutStep_snd (st : CacheState) (nodes : List RNode) (edges : List REdge) :
    (relayoutStep st nodes edges).2 =
      { prevEdges := if st.prevEdges.length ≠ edges.length then edges else st.prevEdges,
        cachedNodes := nodes } := rfl

theorem mapGet_not_mem {ns : List RNode} {i : String} (h : i ∉ ns.map RNode.id) :
    mapGet ns i = none := by
  induction ns with
  | nil => rfl
  | cons n t ih =>
    rw [List.map_cons] at h
    have h1 : ¬ n.id = i := fun hc => h (hc ▸ List.mem_cons_self _ _)
    have h2 : i ∉ t.map RNode.id := fun hc => h (List.mem_cons_of_mem _ hc)
    unfold mapGet
    rw [ih h2]
    simp [h1]

theorem mapGet_self {ns : List RNode} (hnd : (ns.map RNode.id).Nodup) {n : RNode}
    (hn : n ∈ ns) : mapGet ns n.id = some n := by
  induction ns with
  | nil => cases hn
  | cons m t ih =>
    rw [List.map_cons, List.nodup_cons] at hnd
    rcases List.mem_cons.mp hn with rfl | ht
    · unfold mapGet
      rw [mapGet_not_mem hnd.1]
      simp
    · unfold mapGet
      rw [ih hnd.2 ht]

/-! ## Claim theorems for the renderer -/

/-- C3: in every layout result application, a node whose id is in the
manually moved set keeps its input position exactly, whatever coordinates
the engine returned for it. -/
theorem C3_pinned_position (nodes : List RNode) (cs : Option (List ElkChildRes))
    (pinned : List String) (n : RNode) (hn : n ∈ nodes)
    (hp : pinned.contains n.id = true) :
    applyLayout nodes cs pinned = nodes.map (applyNode pinned cs) ∧
    (applyNode pinned cs n).id = n.id ∧
    (applyNode pinned cs n).x = n.x ∧ (applyNode pinned cs n).y = n.y := by
  refine ⟨rfl, ?_⟩
  have hp2 : n.id ∈ pinned := by simpa using hp
  unfold applyNode
  cases findChild cs n.id with
  | none => exact ⟨rfl, rfl, rfl⟩
  | some c => simp [hp2]

/-- Witness for C3: the pinned node A keeps position (1, 2) although the
engine reported (7, 8). -/
theorem C3_pinned_position_witness :
    applyLayout [nodeA] (some [childFull]) ["A"]
        = [nodeA].map (applyNode ["A"] (some [childFull])) ∧
    (applyNode ["A"] (some [childFull]) nodeA).id = nodeA.id ∧
    (applyNode ["A"] (some [childFull]) nodeA).x = nodeA.x ∧
    (applyNode ["A"] (some [childFull]) nodeA).y = nodeA.y :=
  C3_pinned_position [nodeA] (some [childFull]) ["A"] nodeA (by decide) (by decide)

/-- C4 counterexample: the engine reports node A with a width but no height;
the resulting node carries no size at all, so the previous size (10 by 20)
is dropped rather than kept, contrary to the claim. -/
theorem C4_counterexample_size_dropped :
    (applyLayout [nodeA] (some [childPartial]) []).map (fun r => (r.width, r.height))
        = [(none, none)] ∧
    nodeA.width = some 10 ∧ nodeA.height = some 20 ∧
    ¬ (applyLayout [nodeA] (some [childPartial]) []).map (fun r => (r.width, r.height))
        = [(nodeA.width, nodeA.height)] := by decide

/-- C4 amended: a node absent from the engine result is kept whole, previous
size included; a node reported with both a truthy width and height adopts
the reported size; in every other case the result node carries no size (the
previous size is dropped, not kept). -/
theorem C4_size_adoption (pinned : List String) (cs : Option (List ElkChildRes)) (n : RNode) :
    (findChild cs n.id = none → applyNode pinned cs n = n) ∧
    (∀ c, findChild cs n.id = some c →
      (jsTruthy c.width = true ∧ jsTruthy c.height = true →
        (applyNode pinned cs n).width = c.width ∧ (applyNode pinned cs n).height = c.height) ∧
      (¬ (jsTruthy c.width = true ∧ jsTruthy c.height = true) →
        (applyNode pinned cs n).width = none ∧ (applyNode pinned cs n).height = none)) := by
  constructor
  · intro h
    unfold applyNode
    rw [h]
  · intro c hc
    constructor
    · rintro ⟨hw, hh⟩
      unfold applyNode
      rw [hc]
      simp [hw, hh]
    · intro hnot
      have hfalse : (jsTruthy c.width && jsTruthy c.height) = false := by
        cases hw : jsTruthy c.width <;> cases hh : jsTruthy c.height <;> simp_all
      unfold applyNode
      rw [hc]
      simp [hfalse]

/-- Witness for the amended C4: with a full engine report the size (30, 40)
is adopted. -/
theorem C4_size_adoption_witness :
    (applyNode [] (some [childFull]) nodeA).width = childFull.width ∧
    (applyNode [] (some [childFull]) nodeA).height = childFull.height :=
  ((C4_size_adoption [] (some [childFull]) nodeA).2 childFull (by decide)).1 (by decide)

/-- C5 counterexample: with the configured direction vertical, the single
port of the built request still carries side EAST, not a south side; the
direction only selects the DOWN algorithm option. -/
theorem C5_counterexample_east_when_vertical :
    ((buildRequest [nodeA] [] .vertical []).children.flatMap ElkChildReq.ports).map ElkPort.side
        = ["EAST"] ∧
    (buildRequest [nodeA] [] .vertical []).direction = "DOWN" ∧
    "EAST" ≠ "SOUTH" := by decide

/-- C5 amended: every layout request carries one port per schema field, with
the port id nodeId-fieldName in field order and the port order equal to the
field index, and the side is always EAST for both directions; the configured
direction instead selects the algorithm direction option, RIGHT for
horizontal and DOWN for vertical. -/
theorem C5_ports (nodes : List RNode) (edges : List REdge) (dir : Direction)
    (pinned : List String) :
    (buildRequest nodes edges dir pinned).children = nodes.map (buildChild pinned) ∧
    (∀ n : RNode,
      (buildPorts n.id n.schema).length = n.schema.length ∧
      (buildPorts n.id n.schema).map ElkPort.order = List.range n.schema.length ∧
      (buildPorts n.id n.schema).map ElkPort.id
          = n.schema.map (fun f => n.id ++ "-" ++ fieldName f) ∧
      ∀ p ∈ buildPorts n.id n.schema, p.side = "EAST") ∧
    (buildRequest nodes edges dir pinned).direction = elkDirection dir ∧
    elkDirection .horizontal = "RIGHT" ∧ elkDirection .vertical = "DOWN" := by
  refine ⟨rfl, ?_, rfl, rfl, rfl⟩
  intro n
  refine ⟨?_, ?_, ?_, ?_⟩
  · unfold buildPorts
    rw [List.length_map, List.enum_length]
  · unfold buildPorts
    rw [List.map_map]
    have hfun : (ElkPort.order ∘ fun p : Nat × Field =>
        ({ id := n.id ++ "-" ++ fieldName p.2, order := p.1, side := "EAST" } : ElkPort))
        = Prod.fst := by
      funext p
      rfl
    rw [hfun, List.enum_map_fst]
  · unfold buildPorts
    rw [List.map_map]
    have hfun : (ElkPort.id ∘ fun p : Nat × Field =>
        ({ id := n.id ++ "-" ++ fieldName p.2, order := p.1, side := "EAST" } : ElkPort))
        = (fun f => n.id ++ "-" ++ fieldName f) ∘ Prod.snd := by
      funext p
      rfl
    rw [hfun, ← List.map_map, List.enum_map_snd]
  · intro p hp
    unfold buildPorts at hp
    obtain ⟨q, _, rfl⟩ := List.mem_map.mp hp
    rfl

/-- Witness for the amended C5: at the one-field node A the request has one
port and its side is EAST. -/
theorem C5_ports_witness :
    (buildPorts nodeA.id nodeA.schema).length = nodeA.schema.length ∧
    ({ id := "A-a", order := 0, side := "EAST" } : ElkPort).side = "EAST" :=
  ⟨((C5_ports [nodeA] [] Direction.vertical []).2.1 nodeA).1,
   ((C5_ports [nodeA] [] Direction.vertical []).2.1 nodeA).2.2.2 _ (by decide)⟩

/-- C6: the relayout decision fires exactly on transitions: it is false when
the edge count, the node count and every cached node metric are unchanged;
it is true on an edge count change, on a node count change, and on a cached
truthy width or height that differs; and because the caches are refreshed by
every evaluation, an immediately repeated identical evaluation never fires. -/
theorem C6_relayout_decision :
    (∀ st nodes edges, st.prevEdges.length = edges.length →
      nodes.length = mapSize st.cachedNodes →
      (∀ n ∈ nodes, ∃ p, mapGet st.cachedNodes n.id = some p ∧
        n.width = p.width ∧ n.height = p.height) →
      (relayoutStep st nodes edges).1 = false) ∧
    (∀ st nodes edges, st.prevEdges.length ≠ edges.length →
      (relayoutStep st nodes edges).1 = true) ∧
    (∀ st nodes edges, st.prevEdges.length = edges.length →
      nodes.length ≠ mapSize st.cachedNodes →
      (relayoutStep st nodes edges).1 = true) ∧
    (∀ st nodes edges, st.prevEdges.length = edges.length →
      nodes.length = mapSize st.cachedNodes →
      (∃ n ∈ nodes, ∃ p, mapGet st.cachedNodes n.id = some p ∧
        ((jsTruthy p.width = true ∧ n.width ≠ p.width) ∨
         (jsTruthy p.height = true ∧ n.height ≠ p.height))) →
      (relayoutStep st nodes edges).1 = true) ∧
    (∀ st nodes edges, (nodes.map RNode.id).Nodup →
      (relayoutStep (relayoutStep st nodes edges).2 nodes edges).1 = false) := by
  refine ⟨?_, ?_, ?_, ?_, ?_⟩
  · intro st nodes edges he hn hall
    rw [relayoutStep_fst, if_neg (by omega), if_pos hn, List.any_eq_false]
    intro n hn2
    obtain ⟨p, hp, hw, hh⟩ := hall n hn2
    simp [nodeMetricsChanged, hp, hw, hh]
  · intro st nodes edges hne
    rw [relayoutStep_fst, if_pos hne]
  · intro st nodes edges he hn
    rw [relayoutStep_fst, if_neg (by omega), if_neg hn]
  · intro st nodes edges he hn hex
    rw [relayoutStep_fst, if_neg (by omega), if_pos hn, List.any_eq_true]
    obtain ⟨n, hnmem, p, hp, hcase⟩ := hex
    refine ⟨n, hnmem, ?_⟩
    unfold nodeMetricsChanged
    rw [hp]
    rcases hcase with ⟨htr, hne2⟩ | ⟨htr, hne2⟩
    · simp [htr, hne2, bne_iff_ne]
    · simp [htr, hne2, bne_iff_ne]
  · intro st nodes edges hnd
    rw [relayoutStep_snd, relayoutStep_fst]
    have hc1 : ¬ ((if st.prevEdges.length ≠ edges.length then edges
        else st.prevEdges).length ≠ edges.length) := by
      split_ifs with h
      · exact fun hc => hc rfl
      · exact h
    rw [if_neg hc1]
    have hsize : nodes.length = mapSize nodes := by
      unfold mapSize
      rw [List.Nodup.dedup hnd, List.length_map]
    rw [if_pos hsize, List.any_eq_false]
    intro n hn2
    have hg : mapGet nodes n.id = some n := mapGet_self hnd hn2
    simp [nodeMetricsChanged, hg]

/-- Witness for C6: an edge appearing out of an empty cache fires the
decision. -/
theorem C6_relayout_decision_witness :
    (relayoutStep cache0 [] [edge1]).1 = true :=
  C6_relayout_decision.2.1 cache0 [] [edge1] (by decide)

theorem topoEmit_eq_some {prev : List Model} {m : Model} {i : String} :
    topoEmit prev m = some i ↔
      (m.id = i ∧ ∃ pm, mapGetModel prev m.id = some pm ∧
        (joinColon pm.dependants ≠ joinColon m.dependants ∨
         joinColon pm.dependencies ≠ joinColon m.dependencies)) := by
  unfold topoEmit
  cases hpm : mapGetModel prev m.id with
  | none => simp
  | some pm =>
    show (if joinColon pm.dependants ≠ joinColon m.dependants ∨
        joinColon pm.dependencies ≠ joinColon m.dependencies
      then some m.id else none) = some i ↔ _
    split_ifs with hdiff
    · simp [hdiff]
    · simp [hdiff]

/-- C8: after a rebuild, a connection geometry invalidated notification is
emitted for an id exactly when some current model has that id, the previous
map has a model under it, and the colon joined dependants ids or colon
joined dependencies ids differ between the two; in particular a model with
both hashes unchanged gets no notification. -/
theorem C8_topology_notifications (prev curr : List Model) (i : String) :
    i ∈ topoNotifications prev curr ↔
      ∃ m ∈ curr, m.id = i ∧ ∃ pm, mapGetModel prev m.id = some pm ∧
        (joinColon pm.dependants ≠ joinColon m.dependants ∨
         joinColon pm.dependencies ≠ joinColon m.dependencies) := by
  unfold topoNotifications
  rw [List.mem_filterMap]
  constructor
  · rintro ⟨m, hm, hsome⟩
    obtain ⟨hid, pm, hpm, hdiff⟩ := topoEmit_eq_some.mp hsome
    exact ⟨m, hm, hid, pm, hpm, hdiff⟩
  · rintro ⟨m, hm, hid, pm, hpm, hdiff⟩
    exact ⟨m, hm, topoEmit_eq_some.mpr ⟨hid, pm, hpm, hdiff⟩⟩

/-- Witness for C8: model A gains a dependant, so a notification for A is
emitted. -/
theorem C8_topology_notifications_witness :
    "A" ∈ topoNotifications [modelA0] [modelA1] :=
  (C8_topology_notifications [modelA0] [modelA1] "A").mpr
    ⟨modelA1, by decide, rfl, modelA0, by decide, by decide⟩

/-- C9: a node whose id is absent from the children of the layout result is
returned unchanged by the result application, so an incomplete result never
zeroes or drops a placement. -/
theorem C9_missing_child_keeps_node (nodes : List RNode) (cs : Option (List ElkChildRes))
    (pinned : List String) (n : RNode) (hn : n ∈ nodes)
    (hmiss : findChild cs n.id = none) :
    applyNode pinned cs n = n ∧ n ∈ applyLayout nodes cs pinned := by
  have heq : applyNode pinned cs n = n := by
    unfold applyNode
    rw [hmiss]
  refine ⟨heq, ?_⟩
  have hmem := List.mem_map_of_mem (applyNode pinned cs) hn
  rw [heq] at hmem
  exact hmem

/-- Witness for C9: an empty children list leaves node A untouched. -/
theorem C9_missing_child_keeps_node_witness :
    applyNode [] (some []) nodeA = nodeA ∧ nodeA ∈ applyLayout [nodeA] (some []) [] :=
  C9_missing_child_keeps_node [nodeA] (some []) [] nodeA (by decide) (by decide)

/-- C10: the manually moved id set is monotone over the Renderer instance:
after any sequence of events an id is pinned exactly when it was pinned
before or a node drag stop for it occurred; no event removes ids, so a
pinned node stays pinned. -/
theorem C10_pinned_monotone (s : List String) (evs : List RendererEvent) (i : String) :
    i ∈ pinnedAfter s evs ↔ (i ∈ s ∨ RendererEvent.nodeDragStop i ∈ evs) := by
  induction evs generalizing s with
  | nil => simp [pinnedAfter]
  | cons e t ih =>
    have hstep : pinnedAfter s (e :: t) = pinnedAfter (pinnedStep s e) t := rfl
    rw [hstep, ih]
    cases e with
    | nodeDragStop j =>
      have hmem : i ∈ pinnedStep s (.nodeDragStop j) ↔ (i ∈ s ∨ i = j) := by
        show i ∈ (if s.contains j then s else s ++ [j]) ↔ (i ∈ s ∨ i = j)
        split_ifs with hc
        · constructor
          · exact Or.inl
          · rintro (h | rfl)
            · exact h
            · simpa using hc
        · simp [List.mem_append]
      rw [hmem]
      simp only [List.mem_cons, RendererEvent.nodeDragStop.injEq]
      tauto
    | autoLayoutPass =>
      simp [pinnedStep, List.mem_cons]
    | mouseDown =>
      simp [pinnedStep, List.mem_cons]
    | wheelMove =>
      simp [pinnedStep, List.mem_cons]
    | autoFitToggle =>
      simp [pinnedStep, List.mem_cons]
    | directionToggle =>
      simp [pinnedStep, List.mem_cons]
    | sourceChange =>
      simp [pinnedStep, List.mem_cons]

end TsDiagram
